import Mathlib

/-!
Verification of the two bulk-edit utilities of the repository
(`replace_ids.py` and `update_image_urls.py`) against their design
specification.

Shallow embedding conventions:
* A parsed JSON document is a `Json` value; numbers are modelled as `Int`
  (the ids the tools handle are integers; nothing in either tool computes
  with the numeric value).
* A Python dict (a record of the collection) is its ordered key/value list;
  `json.load` never produces duplicate keys and the tools only assign to
  keys that are already present, so assignment is an in-place value update.
* `sys.exit(1)` after printing an error is modelled as `Except.error` with
  the printed message; per-record warnings are collected as data instead of
  being printed.
* File I/O, `argparse` and the JSON parser/serializer are external
  collaborators (spec section 1) and are not modelled; each loader is
  modelled from the point where its input text or parsed value is in hand.
-/

/-- JSON values as produced by `json.load`. -/
inductive Json where
  | null
  | bool (b : Bool)
  | num (n : Int)
  | str (s : String)
  | arr (elems : List Json)
  | obj (fields : List (String × Json))

/-- A record of the collection: one JSON object, as its ordered field list. -/
abbrev Record := List (String × Json)

/-- Python `d.get(k)` on a dict `d`, modelled on the ordered field list:
the value of the first field named `k`, if any. -/
def dictGet (r : Record) (k : String) : Option Json :=
  match r with
  | [] => none
  | (k', v) :: rest => if k' = k then some v else dictGet rest k

/-- Python `d[k] = v` for a key `k` that is already present in `d`: the value
is overwritten and the key order is unchanged.  (Both tools only ever assign
to keys whose presence they have just observed.) -/
def dictSet (r : Record) (k : String) (v : Json) : Record :=
  match r with
  | [] => []
  | (k', w) :: rest =>
    if k' = k then (k', v) :: dictSet rest k v else (k', w) :: dictSet rest k v

/-! ### replace_ids.py -/

/-- Python `str.strip()` on the characters of one line: whitespace is removed
from both ends.  (`Char.isWhitespace` covers space, tab, CR, LF; the further
ASCII control characters Python also strips never survive into an ID and are
immaterial here.) -/
def pyStrip (l : List Char) : List Char :=
  ((l.dropWhile Char.isWhitespace).reverse.dropWhile Char.isWhitespace).reverse

/-- The lines of a text, split at newline characters.  Iterating a Python
text file yields exactly these pieces (each with its terminator, which
`strip()` removes anyway). -/
def splitLines : List Char → List (List Char)
  | [] => [[]]
  | c :: rest =>
    if c = '\n' then [] :: splitLines rest
    else
      match splitLines rest with
      | [] => [[c]]
      | l :: ls => (c :: l) :: ls

/-- `read_ids` (replace_ids.py, lines 5-19): one ID per line of the text
source, `line.strip()` applied, lines that are blank after stripping are
dropped (`if line.strip()`). -/
def read_ids (text : List Char) : List String :=
  ((splitLines text).map (fun l => String.mk (pyStrip l))).filter (fun l => l != "")

/-- The error message of the top-level shape check in `read_json`. -/
def shapeErrorMsg : String :=
  "Error: Expected the JSON file to contain a list of objects."

/-- The top-level shape check of `read_json` (replace_ids.py, lines 21-40):
after parsing, `isinstance(data, list)` must hold; any other top-level value
is a fatal error.  (The file-not-found and JSON-syntax failure branches
happen before a parsed value exists and are outside the model.) -/
def read_json_ids (v : Json) : Except String (List Json) :=
  match v with
  | Json.arr xs => Except.ok xs
  | _ => Except.error shapeErrorMsg

/-- The textually identical top-level shape check of `read_json` in
update_image_urls.py (lines 6-25). -/
def read_json_urls (v : Json) : Except String (List Json) :=
  match v with
  | Json.arr xs => Except.ok xs
  | _ => Except.error shapeErrorMsg

/-- Whether a JSON value is a mapping object. -/
def Json.isObj : Json → Bool
  | Json.obj _ => true
  | _ => false

/-- Modelled from the spec's words ("require the top-level value be a
sequence (array) of mapping objects"), for comparison with the code's
check. -/
def specArrayOfMappings : Json → Bool
  | Json.arr xs => xs.all Json.isObj
  | _ => false

/-- `entry.get('id', None)` (replace_ids.py, line 63): Python returns `None`
both when the key is absent and when its JSON value is null (`json.load`
turns JSON null into Python `None`). -/
def pyGetId (entry : Record) : Option Json :=
  match dictGet entry "id" with
  | some Json.null => none
  | some v => some v
  | none => none

/-- One iteration of the loop in `replace_ids_in_json` (lines 62-67): the
updated entry, and whether the missing-id warning was printed for it. -/
def replaceIdsEntry (entry : Record) (newId : String) : Record × Bool :=
  match pyGetId entry with
  | some _ => (dictSet entry "id" (Json.str newId), false)
  | none => (entry, true)

/-- The `for index, (entry, new_id) in enumerate(zip(json_data, new_ids), start=1)`
loop: the mutated entries and the 1-based indices of the warned entries.
`zip` stops at the shorter list, leaving any remaining entries untouched. -/
def replaceIdsLoop : Nat → List Record → List String → List Record × List Nat
  | _, [], _ => ([], [])
  | _, entries, [] => (entries, [])
  | idx, e :: es, i :: is =>
    let p := replaceIdsEntry e i
    let q := replaceIdsLoop (idx + 1) es is
    (p.1 :: q.1, if p.2 then idx :: q.2 else q.2)

/-- The fatal message printed on a length mismatch (line 59). -/
def lengthMismatchMsg (numIds numEntries : Nat) : String :=
  "Error: Number of IDs (" ++ toString numIds ++
    ") does not match number of JSON entries (" ++ toString numEntries ++ ")."

/-- `replace_ids_in_json` (replace_ids.py, lines 54-69): abort with the
length-mismatch message before touching any entry when the counts differ,
otherwise run the replacement loop. -/
def replace_ids_in_json (json_data : List Record) (new_ids : List String) :
    Except String (List Record × List Nat) :=
  if json_data.length ≠ new_ids.length then
    Except.error (lengthMismatchMsg new_ids.length json_data.length)
  else
    Except.ok (replaceIdsLoop 1 json_data new_ids)

/-! ### update_image_urls.py -/

/-- The folder token that `update_image_url` replaces. -/
def oldTok : List Char := "atlas-offchain-images".toList

/-- Its replacement. -/
def newTok : List Char := "atlas-images-offchain".toList

/-- The literal prefix token of the anchored filename pattern. -/
def atlasTok : List Char := "Atlas".toList

/-- The literal extension of the anchored filename pattern. -/
def pngTok : List Char := ".png".toList

/-- Python `str.replace(old, new)` for a non-empty `old`: scan left to right,
splicing `new` in for each non-overlapping occurrence of `old`.  The
recursion is fuel-driven so that the kernel can evaluate it; a step always
consumes at least one character, so `fuel = s.length` suffices. -/
def pyReplaceF (old new : List Char) : Nat → List Char → List Char
  | 0, s => s
  | _ + 1, [] => []
  | fuel + 1, c :: rest =>
    if old.isPrefixOf (c :: rest) then
      new ++ pyReplaceF old new fuel (rest.drop (old.length - 1))
    else
      c :: pyReplaceF old new fuel rest

/-- `url.replace(old, new)` (update_image_urls.py, line 50). -/
def pyReplace (old new s : List Char) : List Char :=
  pyReplaceF old new s.length s

/-- One attempted match of `(Atlas)(\d+)(\.png)$` at the current position:
the rest of the string must be `Atlas`, a non-empty digit run, then `.png`
at the very end (Python's `$` without MULTILINE also matches just before a
lone final newline, hence the second disjunct).  The greedy `\d+` must run
up to the `.` — backtracking onto fewer digits leaves a digit where `\.` is
required — so taking the maximal run is exactly the regex behaviour.  `\d`
is modelled as the decimal digits 0-9 (the URLs at hand are ASCII).
On success, the replacement `\1-\2\3` for the matched span. -/
def tryMatchHere (s : List Char) : Option (List Char) :=
  if atlasTok.isPrefixOf s then
    if (s.drop 5).takeWhile Char.isDigit ≠ [] ∧
        ((s.drop 5).dropWhile Char.isDigit = pngTok ∨
          (s.drop 5).dropWhile Char.isDigit = pngTok ++ ['\n']) then
      some (atlasTok ++ '-' ::
        ((s.drop 5).takeWhile Char.isDigit ++ (s.drop 5).dropWhile Char.isDigit))
    else none
  else none

/-- `re.subn(pattern, replacement, s)` for the end-anchored pattern
(update_image_urls.py, lines 57-59): the scan finds the leftmost matching
position; because every match must reach the end of the string at most one
substitution happens.  `some` is the substituted string (count 1), `none`
means no match (count 0). -/
def subnAtlas : List Char → Option (List Char)
  | [] => none
  | c :: rest =>
    match tryMatchHere (c :: rest) with
    | some r => some r
    | none => Option.map (fun t => c :: t) (subnAtlas rest)

/-- `update_image_url` (update_image_urls.py, lines 39-64): the folder-name
substitution, then the anchored hyphen insertion.  The second component is
the `count` of `re.subn`; the code prints its pattern warning exactly when
the count is zero. -/
def update_image_url (url : List Char) : List Char × Nat :=
  let u1 := pyReplace oldTok newTok url
  match subnAtlas u1 with
  | some r => (r, 1)
  | none => (u1, 0)

/-- `update_image_url` lifted to a stored string value. -/
def update_image_url_str (s : String) : String × Nat :=
  let p := update_image_url s.data
  (String.mk p.1, p.2)

/-- `entry.get('meta', {})` used as a dict: the field list of the record's
`meta` object, `{}` when the key is absent.  (A non-object `meta` would make
the Python code raise; such records are excluded by `wfRecord`.) -/
def getMetaFields (entry : Record) : List (String × Json) :=
  match dictGet entry "meta" with
  | some (Json.obj fs) => fs
  | _ => []

/-- `meta.get('image', '')`: the stored URL string, `''` when absent.  (A
non-string value would crash `.replace` or be skipped by falsiness; excluded
by `wfRecord`.) -/
def getImage (fs : List (String × Json)) : String :=
  match dictGet fs "image" with
  | some (Json.str s) => s
  | _ => ""

/-- The records on which the Python URL pass is defined: `meta`, when
present, is an object, and its `image`, when present, is a string. -/
def wfRecord (entry : Record) : Bool :=
  match dictGet entry "meta" with
  | none => true
  | some (Json.obj fs) =>
    match dictGet fs "image" with
    | none => true
    | some (Json.str _) => true
    | some _ => false
  | some _ => false

/-- `json_data[index - 1]['meta']['image'] = new_image_url` (line 78): the
meta object is mutated in place, so the entry keeps its keys and gets the
updated `image` value inside `meta`. -/
def setMetaImage (entry : Record) (fs : List (String × Json)) (s : String) : Record :=
  dictSet entry "meta" (Json.obj (dictSet fs "image" (Json.str s)))

/-- One iteration of the loop of `replace_image_urls` (lines 72-81): the
resulting entry, whether it was counted as updated, whether the
missing-image warning fired, and whether the pattern warning inside
`update_image_url` fired. -/
def processUrlEntry (entry : Record) : Record × Bool × Bool × Bool :=
  let fs := getMetaFields entry
  let img := getImage fs
  if img = "" then (entry, false, true, false)
  else
    let p := update_image_url_str img
    if p.1 ≠ img then (setMetaImage entry fs p.1, true, false, p.2 = 0)
    else (entry, false, false, p.2 = 0)

/-- `replace_image_urls` (update_image_urls.py, lines 66-82): every entry is
processed in order; the count of entries actually changed is returned with
the list. -/
def replace_image_urls : List Record → List Record × Nat
  | [] => ([], 0)
  | e :: es =>
    let p := processUrlEntry e
    let q := replace_image_urls es
    (p.1 :: q.1, (if p.2.1 then 1 else 0) + q.2)

/-- The tails that the end anchor accepts after the digit run: `.png` at the
very end of the string, or `.png` just before a lone final newline. -/
def zOk (z : List Char) : Prop := z = pngTok ∨ z = pngTok ++ ['\n']

/-- `s` matches the anchored filename pattern with prefix `p`, digit run `d`
and accepted tail `z`. -/
def atlasDecomp (s p d z : List Char) : Prop :=
  s = p ++ (atlasTok ++ (d ++ z)) ∧ d ≠ [] ∧ d.all Char.isDigit = true ∧ zOk z

/-- The result of the hyphen insertion for that decomposition. -/
def hyphenated (p d z : List Char) : List Char :=
  p ++ (atlasTok ++ '-' :: (d ++ z))

instance zOk_decidable (z : List Char) : Decidable (zOk z) :=
  inferInstanceAs (Decidable (_ ∨ _))

instance atlasDecomp_decidable (s p d z : List Char) : Decidable (atlasDecomp s p d z) :=
  inferInstanceAs (Decidable (_ ∧ _ ∧ _ ∧ _))

/-- Two records agree on everything except possibly the `image` value inside
their `meta` object: same `meta` shape and keys, identical values at every
meta key other than `image`. -/
def metaExceptImage (a b : Record) : Prop :=
  match dictGet a "meta", dictGet b "meta" with
  | some (Json.obj fa), some (Json.obj fb) =>
    fa.map Prod.fst = fb.map Prod.fst ∧
    ∀ k, k ≠ "image" → dictGet fa k = dictGet fb k
  | x, y => x = y


/-! ### Dictionary lemmas -/

theorem dictGet_dictSet_self {r : Record} {k : String} {v : Json} (v' : Json)
    (h : dictGet r k = some v) : dictGet (dictSet r k v') k = some v' := by
  induction r with
  | nil => simp [dictGet] at h
  | cons kv rest ih =>
    obtain ⟨k', w⟩ := kv
    by_cases hk : k' = k
    · subst hk
      simp [dictGet, dictSet]
    · simp [dictGet, hk] at h
      simpa [dictGet, dictSet, hk] using ih h

theorem dictGet_dictSet_ne {r : Record} {k k' : String} {v' : Json}
    (h : k' ≠ k) : dictGet (dictSet r k v') k' = dictGet r k' := by
  induction r with
  | nil => simp [dictGet, dictSet]
  | cons kv rest ih =>
    obtain ⟨k₀, w⟩ := kv
    by_cases hk : k₀ = k
    · subst hk
      simp [dictGet, dictSet, Ne.symm h, ih]
    · simp [dictGet, dictSet, hk, ih]

theorem dictSet_keys (r : Record) (k : String) (v : Json) :
    (dictSet r k v).map Prod.fst = r.map Prod.fst := by
  induction r with
  | nil => rfl
  | cons kv rest ih =>
    by_cases hk : kv.1 = k <;> simp [dictSet, hk] <;> simpa [dictSet] using ih

/-! ### Loop characterization lemmas -/

theorem replaceIdsLoop_fst (idx : Nat) (es : List Record) (is : List String) :
    (replaceIdsLoop idx es is).1 =
      List.zipWith (fun e i => (replaceIdsEntry e i).1) es is ++ es.drop is.length := by
  induction es generalizing idx is with
  | nil => cases is <;> simp [replaceIdsLoop]
  | cons e es ih =>
    cases is with
    | nil => simp [replaceIdsLoop]
    | cons i is => simp [replaceIdsLoop, ih]

theorem replaceIdsLoop_warnMem (idx j : Nat) (es : List Record) (is : List String)
    (e : Record) (i : String) (he : es.get? j = some e) (hi : is.get? j = some i)
    (hw : (replaceIdsEntry e i).2 = true) :
    idx + j ∈ (replaceIdsLoop idx es is).2 := by
  induction es generalizing idx j is with
  | nil => simp at he
  | cons e₀ es ih =>
    cases is with
    | nil => simp at hi
    | cons i₀ is =>
      cases j with
      | zero =>
        simp at he hi
        subst he; subst hi
        simp [replaceIdsLoop, hw]
      | succ j =>
        simp only [List.get?] at he hi
        have := ih (idx + 1) j is he hi
        simp only [replaceIdsLoop]
        have harith : idx + 1 + j = idx + (j + 1) := by omega
        by_cases hp : (replaceIdsEntry e₀ i₀).2 = true
        · simp only [hp, if_true]
          exact List.mem_cons_of_mem _ (harith ▸ this)
        · simp only [hp, if_false]
          exact harith ▸ this

theorem zipWith_get?_eq {α β γ : Type} (f : α → β → γ) (as : List α) (bs : List β)
    (j : Nat) (a : α) (b : β) (ha : as.get? j = some a) (hb : bs.get? j = some b) :
    (List.zipWith f as bs).get? j = some (f a b) := by
  simp only [List.get?_eq_getElem?] at *
  simp [List.getElem?_zipWith, ha, hb]

theorem pyGetId_of_absent {e : Record} (h : dictGet e "id" = none) :
    pyGetId e = none := by
  simp [pyGetId, h]

theorem pyGetId_of_null {e : Record} (h : dictGet e "id" = some Json.null) :
    pyGetId e = none := by
  simp [pyGetId, h]

theorem replaceIdsEntry_of_none {e : Record} {i : String} (h : pyGetId e = none) :
    replaceIdsEntry e i = (e, true) := by
  simp [replaceIdsEntry, h]

theorem replaceIdsEntry_of_some {e : Record} {i : String} {v : Json}
    (h : pyGetId e = some v) :
    replaceIdsEntry e i = (dictSet e "id" (Json.str i), false) := by
  simp [replaceIdsEntry, h]

theorem pyGetId_some_dictGet {e : Record} {v : Json} (h : pyGetId e = some v) :
    dictGet e "id" = some v := by
  unfold pyGetId at h
  cases hg : dictGet e "id" with
  | none => simp [hg] at h
  | some w => cases w <;> simp_all

theorem replace_ids_ok (rs : List Record) (ids : List String)
    (h : rs.length = ids.length) :
    replace_ids_in_json rs ids =
      Except.ok (List.zipWith (fun e i => (replaceIdsEntry e i).1) rs ids,
        (replaceIdsLoop 1 rs ids).2) := by
  have hd : rs.drop ids.length = [] := by
    rw [← h]; exact List.drop_length rs
  have hfst := replaceIdsLoop_fst 1 rs ids
  rw [hd, List.append_nil] at hfst
  unfold replace_ids_in_json
  rw [if_neg (by omega)]
  exact congrArg Except.ok (Prod.ext hfst rfl)

/-- C2: when the RecordSet and the IdList have different lengths,
`replace_ids_in_json` terminates with the fatal length-mismatch message
reporting both counts, and no mutated record set is ever produced. -/
theorem claim_c2 (json_data : List Record) (new_ids : List String)
    (h : json_data.length ≠ new_ids.length) :
    replace_ids_in_json json_data new_ids =
      Except.error (lengthMismatchMsg new_ids.length json_data.length) ∧
    ∀ result, replace_ids_in_json json_data new_ids ≠ Except.ok result := by
  have he : replace_ids_in_json json_data new_ids =
      Except.error (lengthMismatchMsg new_ids.length json_data.length) := by
    unfold replace_ids_in_json
    rw [if_pos h]
  exact ⟨he, fun result hcon => by rw [he] at hcon; exact Except.noConfusion hcon⟩

/-- Witness for C2 at the concrete pair of an empty RecordSet and a
one-element IdList. -/
theorem claim_c2_witness :
    ([] : List Record).length ≠ (["a"] : List String).length ∧
    replace_ids_in_json [] ["a"] = Except.error (lengthMismatchMsg 1 0) :=
  ⟨by decide, (claim_c2 [] ["a"] (by decide)).1⟩

/-- C1 counterexample: for the RecordSet `[{}]` (one record with no `id`
field) and the IdList `["x"]` of equal length, the transformer succeeds but
the record's `id` does not equal the IdList entry at its index — the record
still has no `id` at all, refuting the unrestricted postcondition. -/
theorem claim_c1_counterexample :
    replace_ids_in_json [([] : Record)] ["x"] = Except.ok ([[]], [1]) ∧
    dictGet ([] : Record) "id" ≠ some (Json.str "x") :=
  ⟨rfl, fun hcon => Option.noConfusion hcon⟩

/-- C1 (amended): with equal lengths the transformer succeeds, keeps the
record count and order (position `j` of the output comes from position `j`
of the input), gives every record whose input `id` is present and non-null
the IdList entry at its index as its new `id`, and leaves every field other
than `id` (and the key order) of every record unchanged. -/
theorem claim_c1_amended (rs : List Record) (ids : List String)
    (h : rs.length = ids.length) :
    ∃ out ws, replace_ids_in_json rs ids = Except.ok (out, ws) ∧
      out.length = rs.length ∧
      ∀ j e i, rs.get? j = some e → ids.get? j = some i →
        out.get? j = some (replaceIdsEntry e i).1 ∧
        (pyGetId e ≠ none →
          dictGet (replaceIdsEntry e i).1 "id" = some (Json.str i)) ∧
        (∀ k, k ≠ "id" →
          dictGet (replaceIdsEntry e i).1 k = dictGet e k) ∧
        (replaceIdsEntry e i).1.map Prod.fst = e.map Prod.fst := by
  refine ⟨_, _, replace_ids_ok rs ids h, ?_, ?_⟩
  · rw [List.length_zipWith, h, min_self]
  · intro j e i he hi
    refine ⟨zipWith_get?_eq _ rs ids j e i he hi, ?_, ?_, ?_⟩
    · intro hne
      obtain ⟨v, hv⟩ := Option.ne_none_iff_exists'.mp hne
      rw [replaceIdsEntry_of_some hv]
      exact dictGet_dictSet_self _ (pyGetId_some_dictGet hv)
    · intro k hk
      cases hv : pyGetId e with
      | none => rw [replaceIdsEntry_of_none hv]
      | some v =>
        rw [replaceIdsEntry_of_some hv]
        exact dictGet_dictSet_ne hk
    · cases hv : pyGetId e with
      | none => rw [replaceIdsEntry_of_none hv]
      | some v =>
        rw [replaceIdsEntry_of_some hv]
        exact dictSet_keys e "id" (Json.str i)

/-- Witness for the amended C1 at a one-record set holding a numeric id. -/
theorem claim_c1_amended_witness :
    ([[("id", Json.num 0)]] : List Record).length = (["x"] : List String).length ∧
    ∃ out ws,
      replace_ids_in_json [[("id", Json.num 0)]] ["x"] = Except.ok (out, ws) ∧
      out.length = ([[("id", Json.num 0)]] : List Record).length ∧
      ∀ j e i, ([[("id", Json.num 0)]] : List Record).get? j = some e →
        (["x"] : List String).get? j = some i →
        out.get? j = some (replaceIdsEntry e i).1 ∧
        (pyGetId e ≠ none →
          dictGet (replaceIdsEntry e i).1 "id" = some (Json.str i)) ∧
        (∀ k, k ≠ "id" →
          dictGet (replaceIdsEntry e i).1 k = dictGet e k) ∧
        (replaceIdsEntry e i).1.map Prod.fst = e.map Prod.fst :=
  ⟨rfl, claim_c1_amended [[("id", Json.num 0)]] ["x"] rfl⟩

/-- C7: with equal lengths, a record that lacks an `id` field is output
unchanged (no `id` field is synthesized), its 1-based index receives the
warning, and every sibling record is still processed by the per-record rule
(no short-circuit). -/
theorem claim_c7 (rs : List Record) (ids : List String) (h : rs.length = ids.length)
    (j : Nat) (e : Record) (i : String) (he : rs.get? j = some e)
    (hi : ids.get? j = some i) (hid : dictGet e "id" = none) :
    ∃ out ws, replace_ids_in_json rs ids = Except.ok (out, ws) ∧
      out.get? j = some e ∧
      (j + 1) ∈ ws ∧
      ∀ j' e' i', rs.get? j' = some e' → ids.get? j' = some i' →
        out.get? j' = some (replaceIdsEntry e' i').1 := by
  have hnone := pyGetId_of_absent hid
  refine ⟨_, _, replace_ids_ok rs ids h, ?_, ?_, ?_⟩
  · rw [zipWith_get?_eq _ rs ids j e i he hi, replaceIdsEntry_of_none hnone]
  · have hw : (replaceIdsEntry e i).2 = true := by
      rw [replaceIdsEntry_of_none hnone]
    have := replaceIdsLoop_warnMem 1 j rs ids e i he hi hw
    rwa [Nat.add_comm] at this
  · exact fun j' e' i' he' hi' => zipWith_get?_eq _ rs ids j' e' i' he' hi'

/-- Witness for C7: a two-record set whose first record has no `id`. -/
theorem claim_c7_witness :
    ([([] : Record), [("id", Json.num 7)]] : List Record).length =
      (["x", "y"] : List String).length ∧
    dictGet ([] : Record) "id" = none ∧
    ∃ out ws,
      replace_ids_in_json [[], [("id", Json.num 7)]] ["x", "y"] =
        Except.ok (out, ws) ∧
      out.get? 0 = some ([] : Record) ∧
      (0 + 1) ∈ ws ∧
      ∀ j' e' i',
        ([([] : Record), [("id", Json.num 7)]] : List Record).get? j' = some e' →
        (["x", "y"] : List String).get? j' = some i' →
        out.get? j' = some (replaceIdsEntry e' i').1 :=
  ⟨rfl, rfl, claim_c7 [[], [("id", Json.num 7)]] ["x", "y"] rfl 0 [] "x" rfl rfl rfl⟩

/-- C9: a record whose `id` field holds JSON null is handled by exactly the
same branch as a record lacking the field — it is output unchanged (its `id`
stays null rather than being replaced), its index is warned, siblings are
still processed — so the equal-length postcondition fails at its position. -/
theorem claim_c9 (rs : List Record) (ids : List String) (h : rs.length = ids.length)
    (j : Nat) (e : Record) (i : String) (he : rs.get? j = some e)
    (hi : ids.get? j = some i) (hid : dictGet e "id" = some Json.null) :
    (∀ i', replaceIdsEntry e i' = (e, true)) ∧
    (∀ e' i', dictGet e' "id" = none → replaceIdsEntry e' i' = (e', true)) ∧
    ∃ out ws, replace_ids_in_json rs ids = Except.ok (out, ws) ∧
      out.get? j = some e ∧
      dictGet e "id" = some Json.null ∧
      dictGet e "id" ≠ some (Json.str i) ∧
      (j + 1) ∈ ws ∧
      ∀ j' e' i', rs.get? j' = some e' → ids.get? j' = some i' →
        out.get? j' = some (replaceIdsEntry e' i').1 := by
  have hnone := pyGetId_of_null hid
  refine ⟨fun i' => replaceIdsEntry_of_none hnone,
    fun e' i' h' => replaceIdsEntry_of_none (pyGetId_of_absent h'),
    _, _, replace_ids_ok rs ids h, ?_, hid, ?_, ?_, ?_⟩
  · rw [zipWith_get?_eq _ rs ids j e i he hi, replaceIdsEntry_of_none hnone]
  · rw [hid]
    intro hcon
    have : Json.null = Json.str i := Option.some.inj hcon
    exact Json.noConfusion this
  · have hw : (replaceIdsEntry e i).2 = true := by
      rw [replaceIdsEntry_of_none hnone]
    have := replaceIdsLoop_warnMem 1 j rs ids e i he hi hw
    rwa [Nat.add_comm] at this
  · exact fun j' e' i' he' hi' => zipWith_get?_eq _ rs ids j' e' i' he' hi'

/-- Witness for C9: a one-record set whose record carries `id: null`. -/
theorem claim_c9_witness :
    ([[("id", Json.null)]] : List Record).length = (["x"] : List String).length ∧
    dictGet ([("id", Json.null)] : Record) "id" = some Json.null ∧
    (∀ i', replaceIdsEntry [("id", Json.null)] i' = ([("id", Json.null)], true)) ∧
    (∀ e' i', dictGet e' "id" = none → replaceIdsEntry e' i' = (e', true)) ∧
    ∃ out ws, replace_ids_in_json [[("id", Json.null)]] ["x"] = Except.ok (out, ws) ∧
      out.get? 0 = some ([("id", Json.null)] : Record) ∧
      dictGet ([("id", Json.null)] : Record) "id" = some Json.null ∧
      dictGet ([("id", Json.null)] : Record) "id" ≠ some (Json.str "x") ∧
      (0 + 1) ∈ ws ∧
      ∀ j' e' i', ([[("id", Json.null)]] : List Record).get? j' = some e' →
        (["x"] : List String).get? j' = some i' →
        out.get? j' = some (replaceIdsEntry e' i').1 := by
  refine ⟨rfl, rfl, ?_⟩
  exact claim_c9 [[("id", Json.null)]] ["x"] rfl 0 [("id", Json.null)] "x" rfl rfl rfl

/-- C5 counterexample: the top-level array `[1]` is not an array of mapping
objects, yet the loader accepts it — the code checks only
`isinstance(data, list)` and never the element shapes. -/
theorem claim_c5_counterexample :
    read_json_ids (Json.arr [Json.num 1]) = Except.ok [Json.num 1] ∧
    read_json_urls (Json.arr [Json.num 1]) = Except.ok [Json.num 1] ∧
    specArrayOfMappings (Json.arr [Json.num 1]) = false :=
  ⟨rfl, rfl, rfl⟩

/-- C5 (amended): both loaders require only that the top-level parsed value
be an array (element shapes are unchecked); every non-array top-level value
is the fatal shape error for both tools, and the error short-circuits any
continuation, so no transformer ever runs on such input; in particular a
top-level object is rejected. -/
theorem claim_c5_amended (v : Json) (h : ∀ xs, v ≠ Json.arr xs) :
    read_json_ids v = Except.error shapeErrorMsg ∧
    read_json_urls v = Except.error shapeErrorMsg ∧
    (∀ {α : Type} (f : List Json → Except String α),
      (read_json_ids v >>= f) = Except.error shapeErrorMsg) ∧
    (∀ {α : Type} (g : List Json → Except String α),
      (read_json_urls v >>= g) = Except.error shapeErrorMsg) := by
  have h1 : read_json_ids v = Except.error shapeErrorMsg := by
    cases v with
    | arr xs => exact absurd rfl (h xs)
    | _ => rfl
  have h2 : read_json_urls v = Except.error shapeErrorMsg := by
    cases v with
    | arr xs => exact absurd rfl (h xs)
    | _ => rfl
  exact ⟨h1, h2, fun f => by rw [h1]; rfl, fun g => by rw [h2]; rfl⟩

/-- Witness for the amended C5 at the document of the spec's concrete case,
the top-level object with key `not`. -/
theorem claim_c5_amended_witness :
    (∀ xs, Json.obj [("not", Json.str "a list")] ≠ Json.arr xs) ∧
    read_json_ids (Json.obj [("not", Json.str "a list")]) =
      Except.error shapeErrorMsg ∧
    read_json_urls (Json.obj [("not", Json.str "a list")]) =
      Except.error shapeErrorMsg :=
  ⟨fun xs hcon => Json.noConfusion hcon,
   (claim_c5_amended _ (fun xs hcon => Json.noConfusion hcon)).1,
   (claim_c5_amended _ (fun xs hcon => Json.noConfusion hcon)).2.1⟩

theorem pyStrip_isPrefix (l : List Char) :
    pyStrip l <+: l.dropWhile Char.isWhitespace := by
  unfold pyStrip
  have hs := List.dropWhile_suffix (l := (l.dropWhile Char.isWhitespace).reverse)
    Char.isWhitespace
  have := List.reverse_prefix.mpr hs
  simpa using this

theorem pyStrip_head {l : List Char} {c : Char}
    (h : (pyStrip l).head? = some c) : c.isWhitespace = false := by
  obtain ⟨t, ht⟩ := pyStrip_isPrefix l
  have hne : pyStrip l ≠ [] := by
    intro hcon; rw [hcon] at h; exact Option.noConfusion h
  have hhead : (l.dropWhile Char.isWhitespace).head? = some c := by
    rw [← ht, List.head?_append, h]; rfl
  have := List.head?_dropWhile_not Char.isWhitespace l
  rw [hhead] at this
  exact this

theorem pyStrip_getLast {l : List Char} {c : Char}
    (h : (pyStrip l).getLast? = some c) : c.isWhitespace = false := by
  unfold pyStrip at h
  rw [List.getLast?_reverse] at h
  have := List.head?_dropWhile_not Char.isWhitespace
    (l := (l.dropWhile Char.isWhitespace).reverse)
  rw [h] at this
  exact this

/-- C8: `read_ids` produces, in source order, the stripped lines of the text
with every blank line silently dropped: the result is a sublist of the
stripped line sequence, every element is the stripped form of a source line,
and every element is a non-empty string with no leading or trailing
whitespace. -/
theorem claim_c8 (text : List Char) :
    (∀ s ∈ read_ids text, s ≠ "") ∧
    (read_ids text).Sublist
      ((splitLines text).map (fun l => String.mk (pyStrip l))) ∧
    (∀ s ∈ read_ids text, ∃ l ∈ splitLines text, s = String.mk (pyStrip l)) ∧
    (∀ s ∈ read_ids text, ∀ c, s.data.head? = some c → c.isWhitespace = false) ∧
    (∀ s ∈ read_ids text, ∀ c, s.data.getLast? = some c → c.isWhitespace = false) := by
  have hform : ∀ s ∈ read_ids text, ∃ l ∈ splitLines text, s = String.mk (pyStrip l) := by
    intro s hs
    have hmem := List.mem_of_mem_filter hs
    obtain ⟨l, hl, hsl⟩ := List.mem_map.mp hmem
    exact ⟨l, hl, hsl.symm⟩
  refine ⟨?_, List.filter_sublist _, hform, ?_, ?_⟩
  · intro s hs
    have := List.of_mem_filter hs
    simpa using this
  · intro s hs c hc
    obtain ⟨l, _, rfl⟩ := hform s hs
    exact pyStrip_head hc
  · intro s hs c hc
    obtain ⟨l, _, rfl⟩ := hform s hs
    exact pyStrip_getLast hc

/-- Witness for C8 at the text consisting of a padded line, a blank line and
a plain line. -/
theorem claim_c8_witness :
    ("a" ∈ read_ids (" a \n\nb".toList)) ∧ "a" ≠ "" ∧
    ∃ l ∈ splitLines (" a \n\nb".toList), "a" = String.mk (pyStrip l) :=
  ⟨by decide, (claim_c8 (" a \n\nb".toList)).1 "a" (by decide),
   (claim_c8 (" a \n\nb".toList)).2.2.1 "a" (by decide)⟩

/-! ### Lemmas about the folder substitution -/

theorem oldTok_length : oldTok.length = 21 := by decide

theorem newTok_length : newTok.length = 21 := by decide

theorem pyReplaceF_fuel (old new : List Char) :
    ∀ (f₁ f₂ : Nat) (s : List Char), s.length ≤ f₁ → s.length ≤ f₂ →
      pyReplaceF old new f₁ s = pyReplaceF old new f₂ s := by
  intro f₁
  induction f₁ with
  | zero =>
    intro f₂ s h₁ _
    have hs : s = [] := List.length_eq_zero.mp (Nat.le_zero.mp h₁)
    subst hs
    cases f₂ <;> rfl
  | succ f₁ ih =>
    intro f₂ s h₁ h₂
    cases s with
    | nil => cases f₂ <;> rfl
    | cons c rest =>
      cases f₂ with
      | zero => simp at h₂
      | succ f₂ =>
        simp only [List.length_cons, Nat.succ_le_succ_iff] at h₁ h₂
        simp only [pyReplaceF]
        by_cases hp : old.isPrefixOf (c :: rest) = true
        · rw [if_pos hp, if_pos hp]
          congr 1
          exact ih f₂ _ (by simp [List.length_drop]; omega) (by simp [List.length_drop]; omega)
        · rw [if_neg hp, if_neg hp]
          congr 1
          exact ih f₂ rest h₁ h₂

theorem pyReplace_cons (old new : List Char) (c : Char) (rest : List Char) :
    pyReplace old new (c :: rest) =
      if old.isPrefixOf (c :: rest) then
        new ++ pyReplace old new (rest.drop (old.length - 1))
      else c :: pyReplace old new rest := by
  unfold pyReplace
  simp only [List.length_cons, pyReplaceF]
  by_cases hp : old.isPrefixOf (c :: rest) = true
  · rw [if_pos hp, if_pos hp]
    congr 1
    exact pyReplaceF_fuel old new rest.length _ _
      (by simp [List.length_drop]) le_rfl
  · rw [if_neg hp, if_neg hp]

theorem pyReplaceF_id_of_no_occ (old new : List Char) :
    ∀ (fuel : Nat) (s : List Char), ¬ old <:+: s → pyReplaceF old new fuel s = s := by
  intro fuel
  induction fuel with
  | zero => intro s _; rfl
  | succ fuel ih =>
    intro s hs
    cases s with
    | nil => rfl
    | cons c rest =>
      have hp : ¬ old.isPrefixOf (c :: rest) = true := by
        intro hcon
        exact hs ( List.isPrefixOf_iff_prefix.mp hcon).isInfix
      simp only [pyReplaceF]
      rw [if_neg hp]
      rw [ih rest (fun hcon => hs (List.infix_cons hcon))]

theorem pyReplace_id_of_no_occ (old new : List Char) (s : List Char)
    (hs : ¬ old <:+: s) : pyReplace old new s = s :=
  pyReplaceF_id_of_no_occ old new s.length s hs

theorem suffix_of_cons_suffix {a : Char} {v w : List Char}
    (h : (a :: v) <:+ w) : v <:+ w := by
  obtain ⟨u, hu⟩ := h
  exact ⟨u ++ [a], by simpa using hu⟩

theorem prefix_append_split {l v X : List Char} (h : l <+: v ++ X)
    (hlen : v.length ≤ l.length) : v <+: l ∧ l.drop v.length <+: X := by
  have hv : v <+: l :=
    List.prefix_of_prefix_length_le (List.prefix_append v X) h hlen
  obtain ⟨w, rfl⟩ := hv
  refine ⟨List.prefix_append v w, ?_⟩
  rw [List.drop_left]
  obtain ⟨t, ht⟩ := h
  rw [List.append_assoc] at ht
  exact ⟨t, List.append_cancel_left ht⟩

theorem pyReplaceF_prefix_track :
    ∀ (fuel : Nat) (s : List Char) (k : Nat), s.length ≤ fuel → 1 ≤ k → k ≤ 21 →
      (oldTok.drop k) <+: pyReplaceF oldTok newTok fuel s → (oldTok.drop k) <+: s := by
  intro fuel
  induction fuel with
  | zero =>
    intro s k h₁ _ _ hpre
    have hs : s = [] := List.length_eq_zero.mp (Nat.le_zero.mp h₁)
    subst hs
    simpa [pyReplaceF] using hpre
  | succ fuel ih =>
    intro s k h₁ hk₁ hk₂ hpre
    rcases Nat.lt_or_ge k 21 with hk | hk
    · cases s with
      | nil => simpa [pyReplaceF] using hpre
      | cons c rest =>
        simp only [List.length_cons, Nat.succ_le_succ_iff] at h₁
        by_cases hp : oldTok.isPrefixOf (c :: rest) = true
        · rw [pyReplaceF, if_pos hp] at hpre
          have hlen : (oldTok.drop k).length ≤ newTok.length := by
            simp [List.length_drop, oldTok_length, newTok_length]
          have hnew : (oldTok.drop k) <+: newTok :=
            List.prefix_of_prefix_length_le hpre (List.prefix_append _ _) hlen
          have hD1 : ∀ n, n < 21 → 1 ≤ n → ¬ (oldTok.drop n) <+: newTok := by decide
          exact absurd hnew (hD1 k hk hk₁)
        · rw [pyReplaceF, if_neg hp] at hpre
          have hk' : k < oldTok.length := by rw [oldTok_length]; exact hk
          have hexp := List.getElem_cons_drop oldTok k hk'
          rw [← hexp] at hpre ⊢
          rw [List.cons_prefix_cons] at hpre ⊢
          exact ⟨hpre.1, ih rest (k + 1) h₁ (by omega) (by omega) hpre.2⟩
    · have hdrop : oldTok.drop k = [] :=
        List.drop_eq_nil_of_le (by rw [oldTok_length]; exact hk)
      rw [hdrop]
      exact List.nil_prefix

theorem straddle_aux :
    ∀ (v X : List Char), v <:+ newTok → ¬ oldTok <:+: X → ¬ oldTok <:+: (v ++ X) := by
  intro v
  induction v with
  | nil => intro X _ hX; simpa using hX
  | cons a v ih =>
    intro X hv hX hcon
    rcases List.infix_cons_iff.mp hcon with hpre | hinf
    · have hpre' : oldTok <+: (a :: v) ++ X := by simpa using hpre
      rcases Nat.lt_or_ge (a :: v).length 21 with hlen | hlen
      · have hsplit := prefix_append_split hpre' (by rw [oldTok_length]; omega)
        have htake : (a :: v) = oldTok.take (a :: v).length :=
          List.prefix_iff_eq_take.mp hsplit.1
        have hD2 : ∀ n, n < 21 → 1 ≤ n → ¬ (oldTok.take n) <:+ newTok := by decide
        have : ¬ (a :: v) <:+ newTok := by
          rw [htake]
          exact hD2 (a :: v).length hlen (by simp)
        exact this hv
      · have hOldPre : oldTok <+: (a :: v) :=
          List.prefix_of_prefix_length_le hpre'
            ((List.prefix_append (a :: v) X)) (by rw [oldTok_length]; exact hlen)
        have : oldTok <:+: newTok := hOldPre.isInfix.trans hv.isInfix
        have hD3 : ¬ oldTok <:+: newTok := by decide
        exact hD3 this
    · exact ih X (suffix_of_cons_suffix hv) hX hinf

theorem pyReplaceF_no_occ :
    ∀ (fuel : Nat) (s : List Char), s.length ≤ fuel →
      ¬ oldTok <:+: pyReplaceF oldTok newTok fuel s := by
  intro fuel
  induction fuel with
  | zero =>
    intro s h₁ hcon
    have hs : s = [] := List.length_eq_zero.mp (Nat.le_zero.mp h₁)
    subst hs
    obtain ⟨x, y, hxy⟩ := hcon
    have := List.append_eq_nil.mp (List.append_eq_nil.mp hxy).1
    exact absurd this.2 (by decide)
  | succ fuel ih =>
    intro s h₁
    cases s with
    | nil =>
      intro hcon
      obtain ⟨x, y, hxy⟩ := hcon
      have := List.append_eq_nil.mp (List.append_eq_nil.mp hxy).1
      exact absurd this.2 (by decide)
    | cons c rest =>
      simp only [List.length_cons, Nat.succ_le_succ_iff] at h₁
      by_cases hp : oldTok.isPrefixOf (c :: rest) = true
      · rw [pyReplaceF, if_pos hp]
        have hX : ¬ oldTok <:+: pyReplaceF oldTok newTok fuel (rest.drop (oldTok.length - 1)) :=
          ih _ (by simp [List.length_drop]; omega)
        exact straddle_aux newTok _ List.suffix_rfl hX
      · rw [pyReplaceF, if_neg hp]
        intro hcon
        rcases List.infix_cons_iff.mp hcon with hpre | hinf
        · have hexp : oldTok = 'a' :: oldTok.drop 1 := by decide
          rw [hexp, List.cons_prefix_cons] at hpre
          have htail : (oldTok.drop 1) <+: rest :=
            pyReplaceF_prefix_track fuel rest 1 h₁ (by omega) (by omega) hpre.2
          have : oldTok <+: (c :: rest) := by
            rw [hexp, List.cons_prefix_cons]
            exact ⟨hpre.1, htail⟩
          exact hp ( List.isPrefixOf_iff_prefix.mpr this)
        · exact ih rest h₁ hinf

theorem pyReplace_no_occ (s : List Char) :
    ¬ oldTok <:+: pyReplace oldTok newTok s :=
  pyReplaceF_no_occ s.length s le_rfl

/-! ### Characterization of the anchored pattern -/

theorem takeWhile_dropWhile_append {p : Char → Bool} :
    ∀ (l₁ l₂ : List Char), l₁.all p = true → (∀ c, l₂.head? = some c → p c = false) →
      (l₁ ++ l₂).takeWhile p = l₁ ∧ (l₁ ++ l₂).dropWhile p = l₂ := by
  intro l₁
  induction l₁ with
  | nil =>
    intro l₂ _ h₂
    cases l₂ with
    | nil => exact ⟨rfl, rfl⟩
    | cons c t =>
      have hc := h₂ c rfl
      simp [List.takeWhile_cons, List.dropWhile_cons, hc]
  | cons a l₁ ih =>
    intro l₂ h₁ h₂
    rw [List.all_cons, Bool.and_eq_true] at h₁
    have := ih l₂ h₁.2 h₂
    simp [List.takeWhile_cons, List.dropWhile_cons, h₁.1, this.1, this.2]

theorem tryMatchHere_some {s r : List Char} (h : tryMatchHere s = some r) :
    ∃ d z, atlasDecomp s [] d z ∧ r = hyphenated [] d z := by
  unfold tryMatchHere at h
  by_cases hp : atlasTok.isPrefixOf s = true
  case neg => rw [if_neg hp] at h; exact absurd h (by simp)
  rw [if_pos hp] at h
  by_cases hc : (s.drop 5).takeWhile Char.isDigit ≠ [] ∧
      ((s.drop 5).dropWhile Char.isDigit = pngTok ∨
        (s.drop 5).dropWhile Char.isDigit = pngTok ++ ['\n'])
  case neg => rw [if_neg hc] at h; exact absurd h (by simp)
  rw [if_pos hc] at h
  obtain ⟨hd, hz⟩ := hc
  refine ⟨(s.drop 5).takeWhile Char.isDigit, (s.drop 5).dropWhile Char.isDigit,
    ⟨?_, hd, List.all_takeWhile, hz⟩, ?_⟩
  · obtain ⟨t, ht⟩ := List.isPrefixOf_iff_prefix.mp hp
    rw [List.takeWhile_append_dropWhile]
    rw [← ht, List.drop_left' (by decide : atlasTok.length = 5)]
    simpa using ht.symm
  · exact (Option.some.inj h).symm

theorem tryMatchHere_build {d z : List Char} (hd : d ≠ [])
    (hdig : d.all Char.isDigit = true) (hz : zOk z) :
    tryMatchHere (atlasTok ++ (d ++ z)) = some (hyphenated [] d z) := by
  have hzh : ∀ c, z.head? = some c → Char.isDigit c = false := by
    intro c hc
    rcases hz with rfl | rfl
    · rw [show pngTok.head? = some '.' from by decide] at hc
      cases hc; decide
    · rw [show (pngTok ++ ['\n']).head? = some '.' from by decide] at hc
      cases hc; decide
  have htw := takeWhile_dropWhile_append d z hdig hzh
  have hp : atlasTok.isPrefixOf (atlasTok ++ (d ++ z)) = true :=
    List.isPrefixOf_iff_prefix.mpr (List.prefix_append _ _)
  have hdrop : (atlasTok ++ (d ++ z)).drop 5 = d ++ z :=
    List.drop_left' (by decide : atlasTok.length = 5)
  unfold tryMatchHere
  rw [if_pos hp, hdrop, htw.1, htw.2, if_pos ⟨hd, hz⟩]
  rfl

theorem subnAtlas_of_match {s r : List Char} (h : tryMatchHere s = some r) :
    subnAtlas s = some r := by
  cases s with
  | nil =>
    rw [show tryMatchHere [] = none from by decide] at h
    exact absurd h (by simp)
  | cons c rest =>
    simp only [subnAtlas]
    rw [h]

theorem subnAtlas_some {s r : List Char} (h : subnAtlas s = some r) :
    ∃ p d z, atlasDecomp s p d z ∧ r = hyphenated p d z := by
  induction s generalizing r with
  | nil => simp [subnAtlas] at h
  | cons c rest ih =>
    simp only [subnAtlas] at h
    cases htm : tryMatchHere (c :: rest) with
    | some r₀ =>
      rw [htm] at h
      obtain ⟨d, z, hdec, hr⟩ := tryMatchHere_some htm
      refine ⟨[], d, z, hdec, ?_⟩
      rw [← Option.some.inj h]
      exact hr
    | none =>
      rw [htm] at h
      cases hs : subnAtlas rest with
      | none => rw [hs] at h; exact absurd h (by simp)
      | some t =>
        rw [hs] at h
        obtain ⟨p, d, z, ⟨hseq, hd, hdig, hz⟩, ht⟩ := ih hs
        refine ⟨c :: p, d, z, ⟨?_, hd, hdig, hz⟩, ?_⟩
        · rw [List.cons_append, ← hseq]
        · have hr : r = c :: t := by
            simpa using h.symm
          rw [hr, ht]
          rfl

theorem subnAtlas_build {s p d z : List Char} (h : atlasDecomp s p d z) :
    ∃ r, subnAtlas s = some r := by
  obtain ⟨hs, hd, hdig, hz⟩ := h
  subst hs
  induction p with
  | nil =>
    rw [List.nil_append]
    exact ⟨_, subnAtlas_of_match (tryMatchHere_build hd hdig hz)⟩
  | cons c p ih =>
    rw [List.cons_append]
    simp only [subnAtlas]
    cases htm : tryMatchHere (c :: (p ++ (atlasTok ++ (d ++ z)))) with
    | some r => exact ⟨r, rfl⟩
    | none =>
      obtain ⟨r, hr⟩ := ih
      exact ⟨c :: r, by rw [hr]; rfl⟩

theorem zOk_head_determines {z z' : List Char} (hz : zOk z) (hz' : zOk z')
    {A A' : List Char} (h : z.reverse ++ A = z'.reverse ++ A') : z = z' := by
  rcases hz with rfl | rfl <;> rcases hz' with rfl | rfl
  · rfl
  · exfalso
    have hh := congrArg List.head? h
    rw [List.head?_append, List.head?_append,
      show pngTok.reverse.head? = some 'g' from by decide,
      show (pngTok ++ ['\n']).reverse.head? = some '\n' from by decide] at hh
    exact absurd (Option.some.inj hh) (by decide)
  · exfalso
    have hh := congrArg List.head? h
    rw [List.head?_append, List.head?_append,
      show pngTok.reverse.head? = some 'g' from by decide,
      show (pngTok ++ ['\n']).reverse.head? = some '\n' from by decide] at hh
    exact absurd (Option.some.inj hh) (by decide)
  · rfl

theorem atlasRev_head {q : List Char} :
    ∀ c, (atlasTok.reverse ++ q).head? = some c → Char.isDigit c = false := by
  intro c hc
  rw [List.head?_append, show atlasTok.reverse.head? = some 's' from by decide] at hc
  cases Option.some.inj hc
  decide

theorem atlasDecomp_unique {s p d z p' d' z' : List Char}
    (h : atlasDecomp s p d z) (h' : atlasDecomp s p' d' z') :
    p = p' ∧ d = d' ∧ z = z' := by
  obtain ⟨hs, hd, hdig, hz⟩ := h
  obtain ⟨hs', hd', hdig', hz'⟩ := h'
  have heq : p ++ (atlasTok ++ (d ++ z)) = p' ++ (atlasTok ++ (d' ++ z')) :=
    hs.symm.trans hs'
  have hrev : z.reverse ++ (d.reverse ++ (atlasTok.reverse ++ p.reverse)) =
      z'.reverse ++ (d'.reverse ++ (atlasTok.reverse ++ p'.reverse)) := by
    have := congrArg List.reverse heq
    simpa [List.reverse_append, List.append_assoc] using this
  have hzz : z = z' := zOk_head_determines hz hz' hrev
  subst hzz
  have hA := List.append_cancel_left hrev
  have h1 := takeWhile_dropWhile_append d.reverse (atlasTok.reverse ++ p.reverse)
    (by rw [List.all_reverse]; exact hdig) atlasRev_head
  have h2 := takeWhile_dropWhile_append d'.reverse (atlasTok.reverse ++ p'.reverse)
    (by rw [List.all_reverse]; exact hdig') atlasRev_head
  have hdd : d.reverse = d'.reverse := by
    rw [← h1.1, hA, h2.1]
  have hde : d = d' := List.reverse_inj.mp hdd
  subst hde
  have hpp : atlasTok.reverse ++ p.reverse = atlasTok.reverse ++ p'.reverse := by
    rw [← h1.2, hA, h2.2]
  have := List.append_cancel_left hpp
  exact ⟨List.reverse_inj.mp this, rfl, rfl⟩

theorem hyphenated_no_decomp {p d z p' d' z' : List Char}
    (hdig : d.all Char.isDigit = true) (hz : zOk z)
    (h : atlasDecomp (hyphenated p d z) p' d' z') : False := by
  obtain ⟨hs, hd', hdig', hz'⟩ := h
  have heq : p ++ (atlasTok ++ '-' :: (d ++ z)) = p' ++ (atlasTok ++ (d' ++ z')) := hs
  have hrev : z.reverse ++ (d.reverse ++ ('-' :: (atlasTok.reverse ++ p.reverse))) =
      z'.reverse ++ (d'.reverse ++ (atlasTok.reverse ++ p'.reverse)) := by
    have := congrArg List.reverse heq
    simpa [List.reverse_append, List.append_assoc] using this
  have hzz : z = z' := zOk_head_determines hz hz' hrev
  subst hzz
  have hA := List.append_cancel_left hrev
  have h1 := takeWhile_dropWhile_append d.reverse ('-' :: (atlasTok.reverse ++ p.reverse))
    (by rw [List.all_reverse]; exact hdig)
    (by intro c hc; cases Option.some.inj hc; decide)
  have h2 := takeWhile_dropWhile_append d'.reverse (atlasTok.reverse ++ p'.reverse)
    (by rw [List.all_reverse]; exact hdig') atlasRev_head
  have hdrop : '-' :: (atlasTok.reverse ++ p.reverse) = atlasTok.reverse ++ p'.reverse := by
    rw [← h1.2, hA, h2.2]
  have hh := congrArg List.head? hdrop
  rw [List.head?_cons, List.head?_append,
    show atlasTok.reverse.head? = some 's' from by decide] at hh
  exact absurd (Option.some.inj hh) (by decide)

theorem subnAtlas_hyphenated_none {p d z : List Char}
    (hdig : d.all Char.isDigit = true) (hz : zOk z) :
    subnAtlas (hyphenated p d z) = none := by
  cases h : subnAtlas (hyphenated p d z) with
  | none => rfl
  | some r =>
    obtain ⟨p', d', z', hdec, -⟩ := subnAtlas_some h
    exact absurd hdec (fun hdec => hyphenated_no_decomp hdig hz hdec)

/-! ### The inserted hyphen cannot create a folder-token occurrence -/

theorem hyphenated_no_occ {p d z : List Char}
    (hdig : d.all Char.isDigit = true) (hz : zOk z)
    (hu : ¬ oldTok <:+: (p ++ (atlasTok ++ (d ++ z)))) :
    ¬ oldTok <:+: hyphenated p d z := by
  intro hcon
  obtain ⟨x, y, hxy⟩ := hcon
  have hxy' : x ++ (oldTok ++ y) = (p ++ atlasTok) ++ ('-' :: (d ++ z)) := by
    simpa [hyphenated, List.append_assoc] using hxy
  have hPu : (p ++ atlasTok) <+: (p ++ (atlasTok ++ (d ++ z))) := by
    refine ⟨d ++ z, ?_⟩
    simp [List.append_assoc]
  rcases Nat.lt_or_ge (p ++ atlasTok).length (x.length + 21) with hsplit | hA
  rcases Nat.lt_or_ge (p ++ atlasTok).length x.length with hC | hB
  · -- the occurrence lies entirely right of the hyphen
    have hxpre : (p ++ atlasTok) ++ ['-'] <+: x := by
      have h₁ : (p ++ atlasTok) ++ ['-'] <+: x ++ (oldTok ++ y) := by
        rw [hxy']
        exact ⟨d ++ z, by simp⟩
      have h₂ : x <+: x ++ (oldTok ++ y) := List.prefix_append _ _
      refine List.prefix_of_prefix_length_le h₁ h₂ ?_
      simp only [List.length_append] at hC ⊢
      simp
      omega
    obtain ⟨x', hx'⟩ := hxpre
    rw [← hx'] at hxy'
    have hQ : x' ++ (oldTok ++ y) = d ++ z := by
      have : ((p ++ atlasTok) ++ ['-']) ++ (x' ++ (oldTok ++ y)) =
          ((p ++ atlasTok) ++ ['-']) ++ (d ++ z) := by
        rw [← List.append_assoc] at hxy' ⊢
        simpa [List.append_assoc] using hxy'
      exact List.append_cancel_left this
    have ha : 'a' ∈ d ++ z := by
      rw [← hQ]
      exact List.mem_append.mpr (Or.inr (List.mem_append.mpr (Or.inl (by decide))))
    rcases List.mem_append.mp ha with had | haz
    · have := List.all_eq_true.mp hdig 'a' had
      exact absurd this (by decide)
    · rcases hz with rfl | rfl
      · exact absurd haz (by decide)
      · exact absurd haz (by decide)
  · -- the occurrence covers the hyphen: oldTok would contain a hyphen
    -- preceded by the end of the literal `Atlas`, which it does not
    have hxP : x <+: (p ++ atlasTok) := by
      have h₁ : x <+: x ++ (oldTok ++ y) := List.prefix_append _ _
      have h₂ : (p ++ atlasTok) <+: x ++ (oldTok ++ y) := by
        rw [hxy']
        exact List.prefix_append _ _
      exact List.prefix_of_prefix_length_le h₁ h₂ (by omega)
    obtain ⟨m, hm⟩ := hxP
    have hmid : oldTok ++ y = m ++ ('-' :: (d ++ z)) := by
      have : x ++ (oldTok ++ y) = x ++ (m ++ ('-' :: (d ++ z))) := by
        rw [hxy', ← hm, List.append_assoc]
      exact List.append_cancel_left this
    have hmlen : m.length ≤ 20 := by
      have := congrArg List.length hm
      simp only [List.length_append] at this hsplit hB
      omega
    have hmo : m <+: oldTok := by
      have h₁ : m <+: m ++ ('-' :: (d ++ z)) := List.prefix_append _ _
      have h₂ : oldTok <+: m ++ ('-' :: (d ++ z)) := by
        rw [← hmid]
        exact List.prefix_append _ _
      exact List.prefix_of_prefix_length_le h₁ h₂ (by rw [oldTok_length]; omega)
    obtain ⟨m', hm'⟩ := hmo
    cases m' with
    | nil =>
      have := congrArg List.length hm'
      rw [oldTok_length] at this
      simp at this
      omega
    | cons c m'' =>
      have hceq : c = '-' ∧ m'' ++ y = d ++ z := by
        have : m ++ ((c :: m'') ++ y) = m ++ ('-' :: (d ++ z)) := by
          rw [← List.append_assoc, hm', hmid]
        have h' := List.append_cancel_left this
        rw [List.cons_append] at h'
        exact ⟨(List.cons.injEq _ _ _ _).mp h' |>.1, (List.cons.injEq _ _ _ _).mp h' |>.2⟩
      have hgetm : oldTok.get? m.length = some '-' := by
        rw [← hm', List.get?_eq_getElem?,
          List.getElem?_append_right (Nat.le_refl m.length)]
        simp [hceq.1]
      have hD : ∀ n, n < 21 → oldTok.get? n = some '-' → n = 5 ∨ n = 14 := by decide
      have hmtake : m = oldTok.take m.length := by
        rw [← hm', List.take_left]
      have hmsufP : m <:+ (p ++ atlasTok) := ⟨x, hm⟩
      have hasufP : atlasTok <:+ (p ++ atlasTok) := List.suffix_append _ _
      rcases hD m.length (by omega) hgetm with h5 | h14
      · have hsuff : atlasTok <:+ m :=
          List.suffix_of_suffix_length_le hasufP hmsufP (by rw [show atlasTok.length = 5 from by decide]; omega)
        have : atlasTok = m := hsuff.eq_of_length (by rw [show atlasTok.length = 5 from by decide]; omega)
        rw [hmtake, h5] at this
        exact absurd this (by decide)
      · have hsuff : atlasTok <:+ m :=
          List.suffix_of_suffix_length_le hasufP hmsufP (by rw [show atlasTok.length = 5 from by decide]; omega)
        rw [hmtake, h14] at hsuff
        exact absurd hsuff (by decide)
  · -- the occurrence lies entirely left of the hyphen
    have hxo : (x ++ oldTok) <+: (p ++ atlasTok) := by
      have h₁ : (x ++ oldTok) <+: x ++ (oldTok ++ y) := by
        rw [← List.append_assoc]
        exact List.prefix_append _ _
      have h₂ : (p ++ atlasTok) <+: x ++ (oldTok ++ y) := by
        rw [hxy']
        exact List.prefix_append _ _
      refine List.prefix_of_prefix_length_le h₁ h₂ ?_
      simp only [List.length_append] at hA ⊢
      rw [oldTok_length]
      omega
    have hoinf : oldTok <:+: (p ++ atlasTok) :=
      List.IsInfix.trans ⟨x, [], by simp⟩ hxo.isInfix
    exact hu (hoinf.trans hPu.isInfix)

theorem update_image_url_eq (url : List Char) :
    update_image_url url =
      match subnAtlas (pyReplace oldTok newTok url) with
      | some r => (r, 1)
      | none => (pyReplace oldTok newTok url, 0) := rfl

/-- C3: the concrete URL of the spec is rewritten exactly as stated; in
general the rewrite first performs the unconditional folder substitution —
after which no occurrence of the old folder token remains, i.e. every
occurrence was replaced — and then, whenever the substituted string ends
with the literal `Atlas`, a non-empty run of decimal digits and `.png`
(`atlasDecomp`), a hyphen is inserted between `Atlas` and the digit run;
when no such suffix exists the substituted string is returned unchanged
with count 0. -/
theorem claim_c3 :
    (update_image_url
        ("https://harto-atelier.github.io/atlas-offchain-images/images/Atlas0.png".toList) =
      ("https://harto-atelier.github.io/atlas-images-offchain/images/Atlas-0.png".toList, 1)) ∧
    (∀ url, ¬ oldTok <:+: pyReplace oldTok newTok url) ∧
    (∀ url p d z, atlasDecomp (pyReplace oldTok newTok url) p d z →
      update_image_url url = (hyphenated p d z, 1)) ∧
    (∀ url, (∀ p d z, ¬ atlasDecomp (pyReplace oldTok newTok url) p d z) →
      update_image_url url = (pyReplace oldTok newTok url, 0)) := by
  refine ⟨by decide, pyReplace_no_occ, ?_, ?_⟩
  · intro url p d z hdec
    obtain ⟨r, hr⟩ := subnAtlas_build hdec
    obtain ⟨p', d', z', hdec', hr'⟩ := subnAtlas_some hr
    obtain ⟨hp, hd, hz⟩ := atlasDecomp_unique hdec' hdec
    subst hp; subst hd; subst hz
    rw [update_image_url_eq, hr, hr']
  · intro url hno
    cases hs : subnAtlas (pyReplace oldTok newTok url) with
    | none => rw [update_image_url_eq, hs]
    | some r =>
      obtain ⟨p, d, z, hdec, -⟩ := subnAtlas_some hs
      exact absurd hdec (hno p d z)

/-- Witness for C3 at the short URL `xAtlas7.png`. -/
theorem claim_c3_witness :
    atlasDecomp (pyReplace oldTok newTok ("xAtlas7.png".toList))
      ("x".toList) ['7'] pngTok ∧
    update_image_url ("xAtlas7.png".toList) =
      (hyphenated ("x".toList) ['7'] pngTok, 1) :=
  ⟨by decide,
   claim_c3.2.2.1 ("xAtlas7.png".toList) ("x".toList) ['7'] pngTok (by decide)⟩

/-- C4: whenever the anchored filename pattern matched (count 1), applying
the whole rewrite a second time to the result returns it unchanged: the
folder substitution finds nothing to replace and the hyphenation pattern no
longer matches, so the count is 0. -/
theorem claim_c4 (url r : List Char) (h : update_image_url url = (r, 1)) :
    update_image_url r = (r, 0) := by
  rw [update_image_url_eq] at h
  cases hsub : subnAtlas (pyReplace oldTok newTok url) with
  | none =>
    rw [hsub] at h
    injection h with h1 h2
    exact absurd h2 (by decide)
  | some r₀ =>
    rw [hsub] at h
    injection h with h1 h2
    subst h1
    obtain ⟨p, d, z, hdec, hhyph⟩ := subnAtlas_some hsub
    obtain ⟨hseq, hd, hdig, hz⟩ := hdec
    have hu1 : ¬ oldTok <:+: (p ++ (atlasTok ++ (d ++ z))) := by
      rw [← hseq]
      exact pyReplace_no_occ url
    have hrinf : ¬ oldTok <:+: r₀ := by
      rw [hhyph]
      exact hyphenated_no_occ hdig hz hu1
    have hid : pyReplace oldTok newTok r₀ = r₀ :=
      pyReplace_id_of_no_occ _ _ _ hrinf
    have hnone : subnAtlas r₀ = none := by
      rw [hhyph]
      exact subnAtlas_hyphenated_none hdig hz
    rw [update_image_url_eq, hid, hnone]

/-- Witness for C4 at the spec's concrete URL pair. -/
theorem claim_c4_witness :
    update_image_url
        ("https://harto-atelier.github.io/atlas-offchain-images/images/Atlas0.png".toList) =
      ("https://harto-atelier.github.io/atlas-images-offchain/images/Atlas-0.png".toList, 1) ∧
    update_image_url
        ("https://harto-atelier.github.io/atlas-images-offchain/images/Atlas-0.png".toList) =
      ("https://harto-atelier.github.io/atlas-images-offchain/images/Atlas-0.png".toList, 0) :=
  ⟨by decide,
   claim_c4
     ("https://harto-atelier.github.io/atlas-offchain-images/images/Atlas0.png".toList)
     ("https://harto-atelier.github.io/atlas-images-offchain/images/Atlas-0.png".toList)
     (by decide)⟩

/-! ### Per-record lemmas for the URL pass -/

theorem meta_obj_of_image_ne {e : Record}
    (h : getImage (getMetaFields e) ≠ "") :
    dictGet e "meta" = some (Json.obj (getMetaFields e)) := by
  cases hm : dictGet e "meta" with
  | none =>
    exfalso; apply h; unfold getMetaFields; rw [hm]; rfl
  | some v =>
    cases v with
    | obj fs => unfold getMetaFields; rw [hm]
    | null => exfalso; apply h; unfold getMetaFields; rw [hm]; rfl
    | bool b => exfalso; apply h; unfold getMetaFields; rw [hm]; rfl
    | num n => exfalso; apply h; unfold getMetaFields; rw [hm]; rfl
    | str s => exfalso; apply h; unfold getMetaFields; rw [hm]; rfl
    | arr xs => exfalso; apply h; unfold getMetaFields; rw [hm]; rfl

theorem image_some_of_ne {fs : List (String × Json)} (h : getImage fs ≠ "") :
    dictGet fs "image" = some (Json.str (getImage fs)) := by
  cases hm : dictGet fs "image" with
  | none => exfalso; apply h; unfold getImage; rw [hm]
  | some v =>
    cases v with
    | str s => unfold getImage; rw [hm]
    | null => exfalso; apply h; unfold getImage; rw [hm]
    | bool b => exfalso; apply h; unfold getImage; rw [hm]
    | num n => exfalso; apply h; unfold getImage; rw [hm]
    | arr xs => exfalso; apply h; unfold getImage; rw [hm]
    | obj gs => exfalso; apply h; unfold getImage; rw [hm]

theorem setMetaImage_ne {e : Record} (himg : getImage (getMetaFields e) ≠ "")
    {s : String} (hs : s ≠ getImage (getMetaFields e)) :
    setMetaImage e (getMetaFields e) s ≠ e := by
  intro hcon
  have hm := meta_obj_of_image_ne himg
  have h1 : dictGet (setMetaImage e (getMetaFields e) s) "meta" =
      some (Json.obj (dictSet (getMetaFields e) "image" (Json.str s))) :=
    dictGet_dictSet_self _ hm
  rw [hcon, hm] at h1
  have h2 := Option.some.inj h1
  injection h2 with h3
  have him := image_some_of_ne himg
  have h4 : dictGet (dictSet (getMetaFields e) "image" (Json.str s)) "image" =
      some (Json.str s) := dictGet_dictSet_self _ him
  rw [← h3, him] at h4
  have h5 := Option.some.inj h4
  injection h5 with h6
  exact hs h6.symm

theorem processUrlEntry_skip {e : Record}
    (h : getImage (getMetaFields e) = "") :
    processUrlEntry e = (e, false, true, false) := by
  simp [processUrlEntry, h]

theorem processUrlEntry_update {e : Record}
    (himg : getImage (getMetaFields e) ≠ "")
    (hne : (update_image_url_str (getImage (getMetaFields e))).1 ≠
      getImage (getMetaFields e)) :
    processUrlEntry e =
      (setMetaImage e (getMetaFields e)
          (update_image_url_str (getImage (getMetaFields e))).1,
        true, false,
        decide ((update_image_url_str (getImage (getMetaFields e))).2 = 0)) := by
  unfold processUrlEntry
  rw [if_neg himg, if_pos hne]

theorem processUrlEntry_noChange {e : Record}
    (himg : getImage (getMetaFields e) ≠ "")
    (heq : ¬ (update_image_url_str (getImage (getMetaFields e))).1 ≠
      getImage (getMetaFields e)) :
    processUrlEntry e =
      (e, false, false,
        decide ((update_image_url_str (getImage (getMetaFields e))).2 = 0)) := by
  unfold processUrlEntry
  rw [if_neg himg, if_neg heq]

theorem processUrlEntry_upd_iff (e : Record) :
    (processUrlEntry e).2.1 = true ↔ (processUrlEntry e).1 ≠ e := by
  by_cases himg : getImage (getMetaFields e) = ""
  · rw [processUrlEntry_skip himg]
    simp
  · by_cases hne : (update_image_url_str (getImage (getMetaFields e))).1 ≠
        getImage (getMetaFields e)
    · rw [processUrlEntry_update himg hne]
      simp only [ne_eq]
      constructor
      · intro _
        exact setMetaImage_ne himg hne
      · intro _
        trivial
    · rw [processUrlEntry_noChange himg hne]
      simp

theorem replace_image_urls_eq (rs : List Record) :
    replace_image_urls rs = (rs.map (fun e => (processUrlEntry e).1),
      rs.countP (fun e => (processUrlEntry e).2.1)) := by
  induction rs with
  | nil => rfl
  | cons e es ih =>
    simp only [replace_image_urls, ih, List.map_cons, List.countP_cons]
    cases hb : (processUrlEntry e).2.1 <;> simp [hb] <;> omega

theorem metaExceptImage_refl (e : Record) : metaExceptImage e e := by
  unfold metaExceptImage
  cases h : dictGet e "meta" with
  | none => rfl
  | some v =>
    cases v with
    | obj fs => exact ⟨rfl, fun _ _ => rfl⟩
    | null => rfl
    | bool b => rfl
    | num n => rfl
    | str s => rfl
    | arr xs => rfl

theorem processUrlEntry_frame (e : Record) :
    (∀ k, k ≠ "meta" → dictGet (processUrlEntry e).1 k = dictGet e k) ∧
    (processUrlEntry e).1.map Prod.fst = e.map Prod.fst ∧
    metaExceptImage e (processUrlEntry e).1 := by
  by_cases himg : getImage (getMetaFields e) = ""
  · rw [processUrlEntry_skip himg]
    exact ⟨fun _ _ => rfl, rfl, metaExceptImage_refl e⟩
  · by_cases hne : (update_image_url_str (getImage (getMetaFields e))).1 ≠
        getImage (getMetaFields e)
    · rw [processUrlEntry_update himg hne]
      have hm := meta_obj_of_image_ne himg
      refine ⟨?_, ?_, ?_⟩
      · intro k hk
        exact dictGet_dictSet_ne hk
      · exact dictSet_keys e "meta" _
      · have hm' : dictGet (setMetaImage e (getMetaFields e)
            (update_image_url_str (getImage (getMetaFields e))).1) "meta" =
            some (Json.obj (dictSet (getMetaFields e) "image"
              (Json.str (update_image_url_str (getImage (getMetaFields e))).1))) :=
          dictGet_dictSet_self _ hm
        unfold metaExceptImage
        rw [hm, hm']
        exact ⟨(dictSet_keys _ _ _).symm, fun k hk => (dictGet_dictSet_ne hk).symm⟩
    · rw [processUrlEntry_noChange himg hne]
      exact ⟨fun _ _ => rfl, rfl, metaExceptImage_refl e⟩

/-- C6: the URL pass never aborts — it returns one output record per input
record — its count is exactly the number of records whose record value
actually changed, a record is only ever either returned unchanged or given
the rewritten `meta.image` when the rewritten string differs from the
original, and a URL that fails the anchored pattern gets the pattern warning
while the record is still counted as updated whenever the folder
substitution alone changed the string. -/
theorem claim_c6 (rs : List Record) (hwf : ∀ e ∈ rs, wfRecord e = true) :
    (replace_image_urls rs).1.length = rs.length ∧
    (replace_image_urls rs).2 = rs.countP (fun e => (processUrlEntry e).2.1) ∧
    (∀ e ∈ rs, (processUrlEntry e).2.1 = true ↔ (processUrlEntry e).1 ≠ e) ∧
    (∀ e ∈ rs, (processUrlEntry e).1 = e ∨
      ((update_image_url_str (getImage (getMetaFields e))).1 ≠
          getImage (getMetaFields e) ∧
        (processUrlEntry e).1 =
          setMetaImage e (getMetaFields e)
            (update_image_url_str (getImage (getMetaFields e))).1)) ∧
    (∀ e ∈ rs, getImage (getMetaFields e) ≠ "" →
      (update_image_url_str (getImage (getMetaFields e))).2 = 0 →
      (processUrlEntry e).2.2.2 = true ∧
      ((update_image_url_str (getImage (getMetaFields e))).1 ≠
          getImage (getMetaFields e) → (processUrlEntry e).2.1 = true)) := by
  refine ⟨?_, ?_, ?_, ?_, ?_⟩
  · rw [replace_image_urls_eq]
    exact List.length_map rs _
  · rw [replace_image_urls_eq]
  · intro e _
    exact processUrlEntry_upd_iff e
  · intro e _
    by_cases himg : getImage (getMetaFields e) = ""
    · left
      rw [processUrlEntry_skip himg]
    · by_cases hne : (update_image_url_str (getImage (getMetaFields e))).1 ≠
          getImage (getMetaFields e)
      · right
        rw [processUrlEntry_update himg hne]
        exact ⟨hne, rfl⟩
      · left
        rw [processUrlEntry_noChange himg hne]
  · intro e _ himg hcnt
    by_cases hne : (update_image_url_str (getImage (getMetaFields e))).1 ≠
        getImage (getMetaFields e)
    · rw [processUrlEntry_update himg hne]
      exact ⟨by simp [hcnt], fun _ => rfl⟩
    · rw [processUrlEntry_noChange himg hne]
      exact ⟨by simp [hcnt], fun hcon => absurd hcon hne⟩

/-- Witness for C6 at the spec's concrete record `{"id": 5, "meta": {}}`
(no `image`, so it is skipped with a warning and not counted). -/
theorem claim_c6_witness :
    (∀ e ∈ ([[("id", Json.num 5), ("meta", Json.obj [])]] : List Record),
      wfRecord e = true) ∧
    ((replace_image_urls [[("id", Json.num 5), ("meta", Json.obj [])]]).1.length =
      ([[("id", Json.num 5), ("meta", Json.obj [])]] : List Record).length ∧
    (replace_image_urls [[("id", Json.num 5), ("meta", Json.obj [])]]).2 =
      ([[("id", Json.num 5), ("meta", Json.obj [])]] : List Record).countP
        (fun e => (processUrlEntry e).2.1) ∧
    (∀ e ∈ ([[("id", Json.num 5), ("meta", Json.obj [])]] : List Record),
      (processUrlEntry e).2.1 = true ↔ (processUrlEntry e).1 ≠ e) ∧
    (∀ e ∈ ([[("id", Json.num 5), ("meta", Json.obj [])]] : List Record),
      (processUrlEntry e).1 = e ∨
      ((update_image_url_str (getImage (getMetaFields e))).1 ≠
          getImage (getMetaFields e) ∧
        (processUrlEntry e).1 =
          setMetaImage e (getMetaFields e)
            (update_image_url_str (getImage (getMetaFields e))).1)) ∧
    (∀ e ∈ ([[("id", Json.num 5), ("meta", Json.obj [])]] : List Record),
      getImage (getMetaFields e) ≠ "" →
      (update_image_url_str (getImage (getMetaFields e))).2 = 0 →
      (processUrlEntry e).2.2.2 = true ∧
      ((update_image_url_str (getImage (getMetaFields e))).1 ≠
          getImage (getMetaFields e) → (processUrlEntry e).2.1 = true))) :=
  ⟨by decide, claim_c6 [[("id", Json.num 5), ("meta", Json.obj [])]] (by decide)⟩

/-- C10: the URL pass returns the same number of records in the same order —
position `j` of the output is the processed record of position `j` of the
input — every field other than `meta.image` (including `id`, the key
structure of the record, and every other key of `meta`) is unchanged in
every record, and a record whose `meta.image` is the empty string satisfies
exactly the same skip equation as one lacking the field: returned unchanged,
not counted, with the missing-image warning. -/
theorem claim_c10 (rs : List Record) (hwf : ∀ e ∈ rs, wfRecord e = true) :
    (replace_image_urls rs).1.length = rs.length ∧
    (∀ j e, rs.get? j = some e →
      (replace_image_urls rs).1.get? j = some (processUrlEntry e).1) ∧
    (∀ e ∈ rs,
      (∀ k, k ≠ "meta" → dictGet (processUrlEntry e).1 k = dictGet e k) ∧
      (processUrlEntry e).1.map Prod.fst = e.map Prod.fst ∧
      metaExceptImage e (processUrlEntry e).1) ∧
    (∀ e, getImage (getMetaFields e) = "" →
      processUrlEntry e = (e, false, true, false)) := by
  refine ⟨?_, ?_, fun e _ => processUrlEntry_frame e,
    fun e h => processUrlEntry_skip h⟩
  · rw [replace_image_urls_eq]
    exact List.length_map rs _
  · intro j e he
    rw [replace_image_urls_eq]
    rw [List.get?_eq_getElem?, List.getElem?_map]
    rw [List.get?_eq_getElem?] at he
    rw [he]
    rfl

/-- Witness for C10 at a one-record set whose `meta.image` is the empty
string. -/
theorem claim_c10_witness :
    (∀ e ∈ ([[("meta", Json.obj [("image", Json.str "")])]] : List Record),
      wfRecord e = true) ∧
    ((replace_image_urls [[("meta", Json.obj [("image", Json.str "")])]]).1.length =
      ([[("meta", Json.obj [("image", Json.str "")])]] : List Record).length ∧
    (∀ j e, ([[("meta", Json.obj [("image", Json.str "")])]] : List Record).get? j =
        some e →
      (replace_image_urls [[("meta", Json.obj [("image", Json.str "")])]]).1.get? j =
        some (processUrlEntry e).1) ∧
    (∀ e ∈ ([[("meta", Json.obj [("image", Json.str "")])]] : List Record),
      (∀ k, k ≠ "meta" → dictGet (processUrlEntry e).1 k = dictGet e k) ∧
      (processUrlEntry e).1.map Prod.fst = e.map Prod.fst ∧
      metaExceptImage e (processUrlEntry e).1) ∧
    (∀ e, getImage (getMetaFields e) = "" →
      processUrlEntry e = (e, false, true, false))) :=
  ⟨by decide, claim_c10 [[("meta", Json.obj [("image", Json.str "")])]] (by decide)⟩
